import Mathlib

set_option linter.unusedVariables false

/-!
Shallow embedding of the ralph-parallel planning core
(`plugins/ralph-parallel/scripts/parse-and-partition.py` and
`plugins/ralph-parallel/scripts/mark-tasks-complete.py`).

Python lists become Lean lists; Python `set` values become duplicate-free
lists maintained by insert-if-absent (their only observable uses in the
source are membership, size, singleton extraction and `sorted(...)`);
Python dicts become association lists with overwrite-on-insert.  String
comparison in the source is Python's code-point lexicographic `<`, which
coincides with Lean's `String` order on these ASCII inputs.
-/

namespace RP

/-- Python `if x not in s: s.add(x)` on a set modelled as a list. -/
def insertIfAbsent [DecidableEq α] (l : List α) (x : α) : List α :=
  if x ∈ l then l else l ++ [x]

/-- Python `s.update(xs)` on a set modelled as a list. -/
def setUnion [DecidableEq α] (l xs : List α) : List α :=
  xs.foldl insertIfAbsent l

/-- Python `set(xs)` (deduplicate, keeping first occurrences). -/
def dedupL [DecidableEq α] (xs : List α) : List α :=
  xs.foldl insertIfAbsent []

/-- Python `s -= xs` on a set modelled as a list. -/
def setMinus [DecidableEq α] (l xs : List α) : List α :=
  l.filter (fun a => ¬ a ∈ xs)

/-- Python `bool(set(a) & set(b))`: the two lists share an element. -/
def hasCommon [DecidableEq α] (a b : List α) : Bool :=
  a.any (fun x => decide (x ∈ b))

/-- Python `<` on strings: lexicographic comparison of code points
(identical to Lean's `String.lt`, but written as a structurally
recursive Boolean function so that it evaluates inside the kernel). -/
def listCharLt : List Char → List Char → Bool
  | [], [] => false
  | [], _ :: _ => true
  | _ :: _, [] => false
  | a :: as, b :: bs =>
    if a.toNat < b.toNat then true
    else if b.toNat < a.toNat then false
    else listCharLt as bs

/-- Python `a < b` on strings. -/
def strLtB (a b : String) : Bool := listCharLt a.data b.data

/-- Insert `x` in front of the first element it is strictly below:
the inner step of a stable insertion sort. -/
def insertSorted (lt : α → α → Bool) (x : α) : List α → List α
  | [] => [x]
  | y :: ys => if lt x y then x :: y :: ys else y :: insertSorted lt x ys

/-- Stable sort (models Python `sorted` / `list.sort`, which are stable). -/
def sortBy (lt : α → α → Bool) (l : List α) : List α :=
  l.foldl (fun acc x => insertSorted lt x acc) []

/-- Python `sorted` on strings (code-point lexicographic). -/
def sortStrings (l : List String) : List String :=
  sortBy strLtB l

/-- Python `sorted` on integers. -/
def sortNats (l : List Nat) : List Nat :=
  sortBy (fun a b => decide (a < b)) l

/-- Python `enumerate`, with an explicit start index. -/
def enumFrom (i : Nat) : List α → List (Nat × α)
  | [] => []
  | x :: xs => (i, x) :: enumFrom (i + 1) xs

/-- Replace the element at index `i` (no-op out of range), as Python
`l[i] = f(l[i])` does on a valid index. -/
def modifyAt (i : Nat) (f : α → α) : List α → List α
  | [] => []
  | x :: xs => if i = 0 then f x :: xs else x :: modifyAt (i - 1) f xs

/-- Python `min(range(len(counts)), key=...)` / `counts.index(min(counts))`:
index of the first occurrence of the minimum of a list of naturals
(`0` on the empty list, which the source never hits). -/
def idxOfMin (counts : List Nat) : Nat :=
  match counts with
  | [] => 0
  | c :: cs =>
    let rec go (best : Nat) (bestIdx : Nat) (i : Nat) : List Nat → Nat
      | [] => bestIdx
      | d :: ds => if d < best then go d i (i + 1) ds else go best bestIdx (i + 1) ds
    go c 0 1 cs

/-- Index of the first occurrence of the maximum of a list of naturals. -/
def idxOfMax (counts : List Nat) : Nat :=
  match counts with
  | [] => 0
  | c :: cs =>
    let rec go (best : Nat) (bestIdx : Nat) (i : Nat) : List Nat → Nat
      | [] => bestIdx
      | d :: ds => if best < d then go d i (i + 1) ds else go best bestIdx (i + 1) ds
    go c 0 1 cs

/-- Python `max(counts)` (0 on empty, never hit on empty in the source). -/
def maxOfList (counts : List Nat) : Nat := counts.foldl Nat.max 0

/-- Python `min(counts)` over a nonempty list (head-seeded fold). -/
def minOfList (counts : List Nat) : Nat :=
  match counts with
  | [] => 0
  | c :: cs => cs.foldl Nat.min c

/-- Association-list lookup (Python `f in d` / `d[f]`). -/
def assocLookup (fo : List (String × Nat)) (f : String) : Option Nat :=
  match fo with
  | [] => none
  | (k, v) :: rest => if k = f then some v else assocLookup rest f

/-- Association-list overwrite-or-append (Python `d[f] = v`). -/
def assocInsert (fo : List (String × Nat)) (f : String) (v : Nat) : List (String × Nat) :=
  match fo with
  | [] => [(f, v)]
  | (k, w) :: rest => if k = f then (f, v) :: rest else (k, w) :: assocInsert rest f v

/-- One parsed task record (the fields of the dict built by `parse_tasks`). -/
structure Task where
  id : String
  description : String
  files : List String
  doSteps : List String
  verify : String
  commit : String
  doneWhen : String
  markers : List String
  phase : Nat
  completed : Bool
  dependencies : List String
  rawBlock : String
deriving DecidableEq

/-- Shorthand for building tasks whose prose fields are empty. -/
def mkTask (id : String) (phase : Nat) (files : List String)
    (markers : List String) (completed : Bool) : Task :=
  ⟨id, "", files, [], "", "", "", markers, phase, completed, [], ""⟩

/-- One author-declared group annotation as extracted by
`parse_predefined_groups` (name, declared files, member task ids). -/
structure PGroup where
  name : String
  files : List String
  taskIds : List String
deriving DecidableEq

/-- Validity filter at the end of `parse_predefined_groups`: keep groups
with both tasks and files, and return the list only when at least two
such groups exist. -/
def predefinedOf (decls : List PGroup) : Option (List PGroup) :=
  let valid := decls.filter (fun g => ¬ g.taskIds = [] ∧ ¬ g.files = [])
  if 2 ≤ valid.length then some valid else none

-- ──────────────────────────────────────────────────────────────────
-- Dependency graph (`build_dependency_graph`)
-- ──────────────────────────────────────────────────────────────────

/-- First pass of `build_dependency_graph`: within a phase, a task
depends on every earlier task sharing a file with it (ids appended in
document order, no dedup). -/
def pass1 (tasks : List Task) : List Task :=
  (enumFrom 0 tasks).map (fun p =>
    let b := p.2
    { b with dependencies := b.dependencies ++
        (((tasks.take p.1).filter
          (fun a => a.phase = b.phase ∧ hasCommon a.files b.files)).map Task.id) })

/-- Body of the `[VERIFY]` loop of `build_dependency_graph` for the task
at index `k` of the working list.  The verification task collects every
same-phase task with a smaller id (Python string `<`!) not already among
its dependencies, then every same-phase task with a larger id gains the
verification task as a dependency. -/
def pass2Step (state : List Task) (k : Nat) : List Task :=
  match state[k]? with
  | none => state
  | some t =>
    if t.markers.contains "VERIFY" then
      let newDeps := state.foldl
        (fun acc o =>
          if o.phase == t.phase && strLtB o.id t.id && ! acc.contains o.id
          then acc ++ [o.id] else acc)
        t.dependencies
      let state1 := state.set k { t with dependencies := newDeps }
      state1.map (fun o =>
        if o.phase == t.phase && strLtB t.id o.id && ! o.dependencies.contains t.id
        then { o with dependencies := o.dependencies ++ [t.id] } else o)
    else state

/-- Second pass of `build_dependency_graph`: the two-sided barrier rule,
run over the tasks in document order. -/
def pass2 (tasks : List Task) : List Task :=
  (List.range tasks.length).foldl pass2Step tasks

/-- Third pass of `build_dependency_graph`: every phase-(N+1) task
depends on the LAST `[VERIFY]` task of phase N, when one exists. -/
def pass3Step (state : List Task) (pq : Nat × Nat) : List Task :=
  match (state.filter (fun t => t.phase = pq.1 ∧ t.markers.contains "VERIFY")).getLast? with
  | none => state
  | some v => state.map (fun t =>
      if t.phase = pq.2 ∧ ¬ t.dependencies.contains v.id = true
      then { t with dependencies := t.dependencies ++ [v.id] } else t)

/-- `build_dependency_graph` (file overlap, verification barriers, phase
ordering, in that order). -/
def buildDependencyGraph (tasks : List Task) : List Task :=
  let afterOverlap := pass1 tasks
  let afterVerify := pass2 afterOverlap
  let phases := sortNats (dedupL (afterVerify.map Task.phase))
  (phases.zip phases.tail).foldl pass3Step afterVerify

-- ──────────────────────────────────────────────────────────────────
-- Partitioning (`partition_tasks` and its helpers)
-- ──────────────────────────────────────────────────────────────────

/-- One working group under construction (the dicts built by the
`_build_groups_*` helpers). -/
structure Group where
  tasks : List Task
  ownedFiles : List String
  dependencies : List Nat
  predefinedName : Option String
deriving DecidableEq

/-- A fresh group (`{'tasks': [], 'ownedFiles': set(), 'dependencies': set()}`). -/
def emptyGroup : Group := ⟨[], [], [], none⟩

/-- Sort key of `parallel_tasks.sort(key=lambda t: (t['phase'], t['id']))`:
tuple comparison, phase first, then the id compared as a Python string. -/
def taskLt (a b : Task) : Bool :=
  a.phase < b.phase || (a.phase == b.phase && strLtB a.id b.id)

/-- Stable sort of tasks by `(phase, id)`. -/
def sortTasks (l : List Task) : List Task := sortBy taskLt l

/-- `_build_groups_from_predefined`: working state while walking the
declared groups (mutable `task_map`, accumulated groups, `grouped_ids`). -/
structure PreState where
  tmap : List (String × Task)
  groups : List Group
  groupedIds : List String
deriving DecidableEq

/-- Association map update used for the in-place dependency filtering of
`task['dependencies'] = [d for d in ... if d in group_task_ids]`. -/
def tmapInsert (m : List (String × Task)) (k : String) (t : Task) : List (String × Task) :=
  match m with
  | [] => [(k, t)]
  | (k', t') :: rest => if k' = k then (k, t) :: rest else (k', t') :: tmapInsert rest k t

/-- Association map lookup for `task_map`. -/
def tmapLookup (m : List (String × Task)) (k : String) : Option Task :=
  match m with
  | [] => none
  | (k', t') :: rest => if k' = k then some t' else tmapLookup rest k

/-- `task_map = {t['id']: t for t in all_tasks}` (later entries win, as in
a Python dict comprehension). -/
def tmapOf (tasks : List Task) : List (String × Task) :=
  tasks.foldl (fun m t => tmapInsert m t.id t) []

/-- Inner loop of `_build_groups_from_predefined` over one declared
group's member ids: collect the incomplete member tasks, strip their
out-of-group dependencies (mutating `task_map`), record grouped ids. -/
def preMember (pg : PGroup) (st : PreState × List Task) (tid : String) :
    PreState × List Task :=
  match tmapLookup st.1.tmap tid with
  | none => st
  | some t =>
    if t.completed then st
    else
      let t' := { t with dependencies := t.dependencies.filter (fun d => decide (d ∈ pg.taskIds)) }
      (⟨tmapInsert st.1.tmap tid t', st.1.groups, insertIfAbsent st.1.groupedIds tid⟩,
       st.2 ++ [t'])

/-- Outer loop body of `_build_groups_from_predefined` for one declared
group: a group is emitted only when it has at least one incomplete
member task. -/
def preStep (st : PreState) (pg : PGroup) : PreState :=
  let res := pg.taskIds.foldl (preMember pg) (st, [])
  let st' := res.1
  if res.2 = [] then st'
  else ⟨st'.tmap, st'.groups ++ [⟨res.2, dedupL pg.files, [], some pg.name⟩], st'.groupedIds⟩

/-- `_build_groups_from_predefined`: only the first `max_teammates`
declared groups are used; incomplete non-verification tasks claimed by
none of them become serial. -/
def buildGroupsFromPredefined (predefined : List PGroup) (allTasks : List Task)
    (parallelTasks : List Task) (maxTeammates : Nat) : List Group × List Task :=
  let st := (predefined.take maxTeammates).foldl preStep ⟨tmapOf allTasks, [], []⟩
  (st.groups, parallelTasks.filter (fun t => ! decide (t.id ∈ st.groupedIds)))

/-- Fold step of `_build_groups_worktree`: task number `i` goes to group
`i % len(groups)`. -/
def wtStep (gs : List Group) (p : Nat × Task) : List Group :=
  modifyAt (p.1 % gs.length) (fun g =>
    { g with tasks := g.tasks ++ [p.2], ownedFiles := setUnion g.ownedFiles p.2.files }) gs

/-- `_build_groups_worktree`: round-robin over `min(max_teammates, n)`
groups in `(phase, id)` order, then empty groups dropped; never yields
serial tasks. -/
def buildGroupsWorktree (parallelTasks : List Task) (maxTeammates : Nat) :
    List Group × List Task :=
  let sorted := sortTasks parallelTasks
  let init := List.replicate (Nat.min maxTeammates sorted.length) emptyGroup
  let filled := (enumFrom 0 sorted).foldl wtStep init
  (filled.filter (fun g => ! g.tasks.isEmpty), [])

/-- Working state of `_build_groups_automatic`: the groups, the global
`file_ownership` map and the serial list. -/
structure AutoState where
  groups : List Group
  fo : List (String × Nat)
  serial : List Task
deriving DecidableEq

/-- `set(task['files'])` of a task. -/
def taskFileSet (t : Task) : List String := dedupL t.files

/-- The set of group indices owning any of the given files
(`owning` in `_build_groups_automatic`). -/
def owningOf (fo : List (String × Nat)) (taskFiles : List String) : List Nat :=
  taskFiles.foldl (fun acc f =>
    match assocLookup fo f with
    | some g => insertIfAbsent acc g
    | none => acc) []

/-- Add a task and its files to group `target`, claiming the files in
the ownership map. -/
def claimInto (st : AutoState) (target : Nat) (t : Task) (tf : List String) : AutoState :=
  ⟨modifyAt target (fun g =>
      { g with tasks := g.tasks ++ [t], ownedFiles := setUnion g.ownedFiles tf }) st.groups,
   tf.foldl (fun fo f => assocInsert fo f target) st.fo,
   st.serial⟩

/-- Per-task body of `_build_groups_automatic`. -/
def autoStep (maxTeammates : Nat) (st : AutoState) (t : Task) : AutoState :=
  let tf := taskFileSet t
  if tf = [] then
    let gs := if st.groups = [] then st.groups ++ [emptyGroup] else st.groups
    let target := idxOfMin (gs.map (fun g => g.tasks.length))
    ⟨modifyAt target (fun g => { g with tasks := g.tasks ++ [t] }) gs, st.fo, st.serial⟩
  else
    let owning := owningOf st.fo tf
    if owning.length = 0 then
      if st.groups.length < maxTeammates then
        claimInto ⟨st.groups ++ [emptyGroup], st.fo, st.serial⟩ st.groups.length t tf
      else
        claimInto st (idxOfMin (st.groups.map (fun g => g.tasks.length))) t tf
    else if owning.length = 1 then
      claimInto st (owning.headD 0) t tf
    else
      ⟨st.groups, st.fo, st.serial ++ [t]⟩

/-- Scan of `_rebalance_groups` from the end of the largest group's task
list for the first task whose files avoid the smallest group's
ownership; returns its index. -/
def findMoveIdx (largestTasks : List Task) (smallestOwned : List String) : Option Nat :=
  let rec go : Nat → Option Nat
    | 0 => none
    | i + 1 =>
      match largestTasks[i]? with
      | none => go i
      | some t => if hasCommon (taskFileSet t) smallestOwned then go i else some i
  go largestTasks.length

/-- Remove the element at an index (Python `list.pop(i)`), no-op out of
range. -/
def removeAt (i : Nat) : List α → List α
  | [] => []
  | x :: xs =>
    match i with
    | 0 => xs
    | j + 1 => x :: removeAt j xs

/-- One accepted move of `_rebalance_groups`: pop the task, shrink the
source group's ownership by the task's files, grow the target group and
reassign the ownership map. -/
def applyMove (gs : List Group) (fo : List (String × Nat)) (largest smallest tIdx : Nat) :
    List Group × List (String × Nat) :=
  match (gs[largest]?).bind (fun g => g.tasks[tIdx]?) with
  | none => (gs, fo)
  | some t =>
    let tf := taskFileSet t
    let gs1 := modifyAt largest (fun g =>
      { g with tasks := removeAt tIdx g.tasks, ownedFiles := setMinus g.ownedFiles tf }) gs
    let gs2 := modifyAt smallest (fun g =>
      { g with tasks := g.tasks ++ [t], ownedFiles := setUnion g.ownedFiles tf }) gs1
    (gs2, tf.foldl (fun m f => assocInsert m f smallest) fo)

/-- The bounded loop of `_rebalance_groups` (`for _ in range(10)`). -/
def rebalanceLoop : Nat → List Group × List (String × Nat) → List Group × List (String × Nat)
  | 0, st => st
  | fuel + 1, (gs, fo) =>
    let counts := gs.map (fun g => g.tasks.length)
    if counts = [] then (gs, fo)
    else if maxOfList counts ≤ 2 * Nat.max (minOfList counts) 1 then (gs, fo)
    else
      let largest := idxOfMax counts
      let smallest := idxOfMin counts
      match (gs[largest]?).bind (fun gL =>
        (gs[smallest]?).bind (fun gS => findMoveIdx gL.tasks gS.ownedFiles)) with
      | none => (gs, fo)
      | some tIdx => rebalanceLoop fuel (applyMove gs fo largest smallest tIdx)

/-- `_rebalance_groups`: skipped entirely below two groups. -/
def rebalanceGroups (gs : List Group) (fo : List (String × Nat)) :
    List Group × List (String × Nat) :=
  if gs.length < 2 then (gs, fo) else rebalanceLoop 10 (gs, fo)

/-- `_build_groups_automatic`: fold the tasks in `(phase, id)` order
through `autoStep`, then rebalance. -/
def buildGroupsAutomatic (parallelTasks : List Task) (maxTeammates : Nat) :
    List Group × List Task :=
  let sorted := sortTasks parallelTasks
  let st := sorted.foldl (autoStep maxTeammates) ⟨[], [], []⟩
  ((rebalanceGroups st.groups st.fo).1, st.serial)

/-- `_add_group_dependencies`: group `i` depends on every other group
holding a task some task of `i` depends on. -/
def addGroupDependencies (gs : List Group) : List Group :=
  (enumFrom 0 gs).map (fun p =>
    let i := p.1
    let g := p.2
    { g with dependencies :=
        g.tasks.foldl (fun acc t =>
          t.dependencies.foldl (fun acc' depId =>
            (enumFrom 0 gs).foldl (fun acc'' q =>
              if q.1 = i then acc''
              else if q.2.tasks.any (fun u => decide (u.id = depId))
              then insertIfAbsent acc'' q.1 else acc'') acc') acc) g.dependencies })

-- ──────────────────────────────────────────────────────────────────
-- Result formatting (`_format_result`, `name_group`)
-- ──────────────────────────────────────────────────────────────────

/-- Python `str.split(sep)` on character lists (structurally recursive
so that it evaluates inside the kernel). -/
def splitOnCharAux (sep : Char) : List Char → List (List Char)
  | [] => [[]]
  | c :: rest =>
    let r := splitOnCharAux sep rest
    if c = sep then [] :: r else (c :: r.headD []) :: r.tail

/-- Python `s.split(sep)` for a one-character separator. -/
def splitOnCharS (sep : Char) (s : String) : List String :=
  (splitOnCharAux sep s.data).map String.mk

/-- Python `s.lower()` (ASCII case folding suffices here). -/
def toLowerS (s : String) : String := String.mk (s.data.map Char.toLower)

/-- `pathlib.Path(f).parts` restricted to the named components
(the root marker of an absolute path is not represented; the source
only ever reads the second-to-last component and the last one). -/
def pathParts (f : String) : List String :=
  (splitOnCharS '/' f).filter (fun s => ! s.data.isEmpty)

/-- `Path(f).parts[-2]` (defaulting to "" out of range). -/
def secondToLastD (ps : List String) : String :=
  match ps.reverse with
  | _ :: b :: _ => b
  | _ => ""

/-- `Path(f).stem.split('.')[0].lower()`: the last path component up to
its first dot, lower-cased (dropping the last suffix first never moves
the first dot). -/
def stemFirst (f : String) : String :=
  toLowerS ((splitOnCharS '.' ((pathParts f).getLastD "")).headD "")

/-- `name_group`: derive a display name from the owned files'
directories, or their stems under generic directory names. -/
def nameGroup (ownedFiles : List String) (groupIndex : Nat) : String :=
  if ownedFiles.isEmpty then "group-" ++ toString groupIndex
  else
    let dirs := ownedFiles.foldl (fun acc f =>
      let ps := pathParts f
      if 2 ≤ ps.length then insertIfAbsent acc (secondToLastD ps) else acc) []
    if dirs.length = 1 then
      let nm := dirs.headD ""
      if nm = "src" ∨ nm = "lib" ∨ nm = "app" then
        let stems := ownedFiles.foldl (fun acc f => insertIfAbsent acc (stemFirst f)) []
        if stems.isEmpty then nm
        else String.intercalate "-" ((sortStrings stems).take 2)
      else nm
    else if dirs.length = 2 then String.intercalate "-" (sortStrings dirs)
    else "group-" ++ toString groupIndex

/-- Serialized serial/verify task entry of `_format_result`. -/
structure STask where
  id : String
  phase : Nat
  rawBlock : String
  verify : String
  description : String
deriving DecidableEq

/-- Serialized group entry of `_format_result`. -/
structure RGroup where
  index : Nat
  name : String
  tasks : List String
  taskDetails : List Task
  ownedFiles : List String
  dependencies : List Nat
  phases : List Nat
  hasMultiplePhases : Bool
deriving DecidableEq

/-- The quality-command record discovered outside the partitioner and
passed through it verbatim. -/
structure QualityCommands where
  typecheck : Option String
  build : Option String
  test : Option String
  lint : Option String
  dev : Option String
deriving DecidableEq

/-- One entry of the verify-quality details list. -/
structure VQDetail where
  taskId : String
  tier : String
  command : String
deriving DecidableEq

/-- The verify-quality histogram computed outside the partitioner and
passed through it verbatim. -/
structure VerifyQuality where
  runtime : Nat
  static : Nat
  weak : Nat
  noneCount : Nat
  details : List VQDetail
deriving DecidableEq

/-- The plan returned by `partition_tasks`.  The speedup estimate
`round(total_parallel / max(max_group, 1), 1)` is represented by the
exact pair (numerator, denominator) it is computed from. -/
structure PResult where
  totalTasks : Nat
  incompleteTasks : Nat
  groups : List RGroup
  serialTasks : List STask
  verifyTasks : List STask
  phaseCount : Nat
  speedupNum : Nat
  speedupDen : Nat
  qualityCommands : Option QualityCommands
  verifyQuality : Option VerifyQuality
deriving DecidableEq

/-- The empty plan, used only to give `Option.getD` a default. -/
def emptyPResult : PResult := ⟨0, 0, [], [], [], 0, 0, 1, none, none⟩

/-- Projection of a task into a serial/verify output entry. -/
def toSTask (t : Task) : STask := ⟨t.id, t.phase, t.rawBlock, t.verify, t.description⟩

/-- Loop body of `_format_result` over the indexed groups: skip empty
groups (keeping original indices), resolve the name
(`predefinedName or name_group`, the empty string being falsy), sort
owned files and dependency indices, compute the phases touched. -/
def formatGroupStep (acc : List RGroup) (p : Nat × Group) : List RGroup :=
  if p.2.tasks.isEmpty then acc
  else
    acc ++ [⟨p.1,
      (match p.2.predefinedName with
       | some s => if s = "" then nameGroup p.2.ownedFiles p.1 else s
       | none => nameGroup p.2.ownedFiles p.1),
      p.2.tasks.map Task.id, p.2.tasks,
      sortStrings p.2.ownedFiles, sortNats p.2.dependencies,
      sortNats (dedupL (p.2.tasks.map Task.phase)),
      decide (1 < (sortNats (dedupL (p.2.tasks.map Task.phase))).length)⟩]

/-- `_format_result`: serialize the groups in order, then totals,
phase count and the speedup pair. -/
def formatResult (groups : List Group) (serialTasks verifyTasks allTasks incomplete : List Task)
    (qc : Option QualityCommands) (vq : Option VerifyQuality) : PResult :=
  let resultGroups := (enumFrom 0 groups).foldl formatGroupStep []
  let totalParallel := resultGroups.foldl (fun n g => n + g.tasks.length) 0
  let maxGroup := match resultGroups with
    | [] => 1
    | _ => maxOfList (resultGroups.map (fun g => g.tasks.length))
  ⟨allTasks.length, incomplete.length, resultGroups,
   serialTasks.map toSTask, verifyTasks.map toSTask,
   (dedupL (incomplete.map Task.phase)).length,
   totalParallel, Nat.max maxGroup 1, qc, vq⟩

/-- `partition_tasks`.  `contentDecls` stands for the group annotations
the regex pass of `parse_predefined_groups` would extract from the
document text (`none` when `content` is empty), to which the source's
validity rule `predefinedOf` is applied. -/
def partitionTasks (tasks : List Task) (maxTeammates : Nat)
    (contentDecls : Option (List PGroup)) (qc : Option QualityCommands)
    (vq : Option VerifyQuality) (strategy : String) : Option PResult :=
  let incomplete := tasks.filter (fun t => ! t.completed)
  if incomplete.isEmpty then none
  else
    let parallel := incomplete.filter (fun t => ! t.markers.contains "VERIFY")
    let verifyTs := incomplete.filter (fun t => t.markers.contains "VERIFY")
    let predefined := contentDecls.bind predefinedOf
    let pair :=
      match predefined with
      | some pre => buildGroupsFromPredefined pre tasks parallel maxTeammates
      | none =>
        if strategy = "worktree" then buildGroupsWorktree parallel maxTeammates
        else buildGroupsAutomatic parallel maxTeammates
    let gs := addGroupDependencies pair.1
    some (formatResult gs pair.2 verifyTs tasks incomplete qc vq)

/-- The full planner pipeline on parsed input: dependency graph, then
partitioning.  Every downstream consumer sees only this value. -/
def runPlanner (tasks : List Task) (maxTeammates : Nat)
    (contentDecls : Option (List PGroup)) (qc : Option QualityCommands)
    (vq : Option VerifyQuality) (strategy : String) : Option PResult :=
  partitionTasks (buildDependencyGraph tasks) maxTeammates contentDecls qc vq strategy

-- ──────────────────────────────────────────────────────────────────
-- Completion marking (`mark-tasks-complete.py`)
-- ──────────────────────────────────────────────────────────────────

/-- Python regex `\w` on the ASCII inputs at hand. -/
def wordChar (c : Char) : Bool := c.isAlphanum || c = '_'

/-- Match a literal pattern at the start of a line, returning the
remainder (the regexes anchor with `^` under `re.MULTILINE` and the id
is `re.escape`d, so the pattern is literal). -/
def matchAt : List Char → List Char → Option (List Char)
  | [], rest => some rest
  | _ :: _, [] => none
  | p :: ps, c :: cs => if p = c then matchAt ps cs else none

/-- The `\b` after the id: a word boundary between the last matched
character and the rest of the line. -/
def hasBoundary (pat rest : List Char) : Bool :=
  let prevWord := match pat.getLast? with
    | some c => wordChar c
    | none => false
  let nextWord := match rest with
    | c :: _ => wordChar c
    | [] => false
  prevWord != nextWord

/-- `^- \[x\] {escaped_id}\b` matches this line. -/
def alreadyMatches (tid line : String) : Bool :=
  let pat := ("- [x] " ++ tid).data
  match matchAt pat line.data with
  | some rest => hasBoundary pat rest
  | none => false

/-- `^(- )\[ \]( {escaped_id}\b)` matches this line. -/
def incompleteMatches (tid line : String) : Bool :=
  let pat := ("- [ ] " ++ tid).data
  match matchAt pat line.data with
  | some rest => hasBoundary pat rest
  | none => false

/-- The substitution `\1[x]\2` on one line: rewrite the matched
checkbox to `[x]`, keeping the rest of the line. -/
def markLine (tid line : String) : String :=
  let pat := ("- [ ] " ++ tid).data
  match matchAt pat line.data with
  | some rest =>
    if hasBoundary pat rest then String.mk (("- [x] " ++ tid).data ++ rest) else line
  | none => line

/-- The counters and working text of the marking loop in `main`. -/
structure MarkState where
  lines : List String
  marked : Nat
  alreadyComplete : Nat
  notFound : Nat
deriving DecidableEq

/-- One iteration of the `for task_id in task_ids` loop of
`mark-tasks-complete.py`: an already-checked id only bumps
`already_complete`; otherwise all `[ ]` occurrences are rewritten and
counted, or the id is recorded as not found. -/
def processOne (s : MarkState) (tid : String) : MarkState :=
  if s.lines.any (alreadyMatches tid) then
    ⟨s.lines, s.marked, s.alreadyComplete + 1, s.notFound⟩
  else if 0 < (s.lines.filter (incompleteMatches tid)).length then
    ⟨s.lines.map (markLine tid),
     s.marked + (s.lines.filter (incompleteMatches tid)).length,
     s.alreadyComplete, s.notFound⟩
  else
    ⟨s.lines, s.marked, s.alreadyComplete, s.notFound + 1⟩

/-- The whole marking loop over the collected task ids, starting from
the document's lines and zeroed counters. -/
def markRun (taskIds : List String) (lines : List String) : MarkState :=
  taskIds.foldl processOne ⟨lines, 0, 0, 0⟩

-- ──────────────────────────────────────────────────────────────────
-- Concrete inputs used to settle individual claims
-- ──────────────────────────────────────────────────────────────────

/-- A 12-task phase whose last task is the verification checkpoint
(the shape of the repository's own `test_verify_dependency_ordering`
fixture): eleven tasks `1.1` … `1.11` on distinct files, then
`1.12 [VERIFY]`. -/
def c1Tasks : List Task :=
  [mkTask "1.1" 1 ["file1.ts"] ["P"] false,
   mkTask "1.2" 1 ["file2.ts"] ["P"] false,
   mkTask "1.3" 1 ["file3.ts"] ["P"] false,
   mkTask "1.4" 1 ["file4.ts"] ["P"] false,
   mkTask "1.5" 1 ["file5.ts"] ["P"] false,
   mkTask "1.6" 1 ["file6.ts"] ["P"] false,
   mkTask "1.7" 1 ["file7.ts"] ["P"] false,
   mkTask "1.8" 1 ["file8.ts"] ["P"] false,
   mkTask "1.9" 1 ["file9.ts"] ["P"] false,
   mkTask "1.10" 1 ["file10.ts"] ["P"] false,
   mkTask "1.11" 1 ["file11.ts"] ["P"] false,
   mkTask "1.12" 1 [] ["VERIFY"] false]

/-- The tasks of the repository's own predefined-conflict fixture
(`TASKS_MD_WITH_CONFLICT`): two declared groups both claim
`tests/test_importer.py`. -/
def c2Tasks : List Task :=
  [mkTask "1.1" 1 ["tests/conftest.py", "tests/test_importer.py"] [] false,
   mkTask "1.2" 1 ["tests/conftest.py"] [] false,
   mkTask "1.3" 1 ["src/importer.py"] [] false,
   mkTask "1.4" 1 ["tests/test_importer.py"] [] false]

/-- The declared group annotations of the same fixture. -/
def c2Decls : List PGroup :=
  [⟨"fixtures", ["tests/conftest.py", "tests/test_importer.py"], ["1.1", "1.2"]⟩,
   ⟨"core", ["src/importer.py", "tests/test_importer.py"], ["1.3", "1.4"]⟩]

/-- Three tasks on one file plus one on another: with a cap of two
groups this forces one rebalancing move. -/
def c4Tasks : List Task :=
  [mkTask "1.1" 1 ["a"] [] false,
   mkTask "1.2" 1 ["a"] [] false,
   mkTask "1.3" 1 ["a"] [] false,
   mkTask "1.4" 1 ["b"] [] false]

/-- Two plain tasks and one verification checkpoint. -/
def c5Tasks : List Task :=
  [mkTask "1.1" 1 ["a"] [] false,
   mkTask "1.2" 1 [] ["VERIFY"] false,
   mkTask "1.3" 1 ["b"] [] false]

/-- Two valid declared groups, the first of which lists the
verification task `1.2` as a member. -/
def c5Decls : List PGroup :=
  [⟨"alpha", ["a"], ["1.1", "1.2"]⟩, ⟨"beta", ["b"], ["1.3"]⟩]

/-- Worktree failing input: one phase whose ids straddle the `1.9` /
`1.10` boundary — tasks `1.1`, `1.2`, `1.10` on distinct files. -/
def c7Pts : List Task :=
  [mkTask "1.1" 1 ["a"] [] false,
   mkTask "1.2" 1 ["b"] [] false,
   mkTask "1.10" 1 ["c"] [] false]

/-- Lexicographic comparison of numeric id components. -/
def listNatLt : List Nat → List Nat → Bool
  | [], [] => false
  | [], _ :: _ => true
  | _ :: _, [] => false
  | a :: as, b :: bs =>
    if a < b then true
    else if b < a then false
    else listNatLt as bs

/-- Modelled from the spec: the numeric per-component id key
(`_task_id_key`) that the data model requires for all id comparisons
("numeric — not lexicographic — ordering of ids is required for all
comparisons") and that the repository's tests import, but which is
absent from the script: each dotted component reads as an integer. -/
def idNumParts (s : String) : List Nat :=
  (splitOnCharS '.' s).map
    (fun comp => comp.data.foldl (fun n ch => n * 10 + (ch.toNat - 48)) 0)

/-- Modelled from the spec: the `(phase, id)` sort key with the id
compared numerically per component, as the spec mandates. -/
def taskLtNumeric (a b : Task) : Bool :=
  a.phase < b.phase
    || (a.phase == b.phase && listNatLt (idNumParts a.id) (idNumParts b.id))

/-- Modelled from the spec: `_build_groups_worktree` as the claim reads
it — identical to `buildGroupsWorktree` except that the tasks are
ordered by the numeric `(phase, id)` key. -/
def buildGroupsWorktreeNumeric (parallelTasks : List Task) (maxTeammates : Nat) :
    List Group × List Task :=
  let sorted := sortBy taskLtNumeric parallelTasks
  let init := List.replicate (Nat.min maxTeammates sorted.length) emptyGroup
  let filled := (enumFrom 0 sorted).foldl wtStep init
  (filled.filter (fun g => ! g.tasks.isEmpty), [])

/-- Every pair of owned-files lists is disjoint. -/
def pairwiseDisjointOwned : List (List String) → Bool
  | [] => true
  | l :: ls => (ls.all (fun l' => ! hasCommon l l')) && pairwiseDisjointOwned ls

-- ──────────────────────────────────────────────────────────────────
-- Theorems
-- ──────────────────────────────────────────────────────────────────

/-- C1 (code bug).  The dependency grapher compares dotted task ids
with Python string `<`, not numerically.  On a 12-task phase whose
verification checkpoint is `1.12`, the checkpoint ends up depending
only on the three tasks whose ids happen to sort below `"1.12"`
lexicographically (`1.1`, `1.10`, `1.11`) instead of on all 11
numerically preceding same-phase tasks, and the numerically earlier
task `1.2` is instead made to depend on the checkpoint. -/
theorem c1_verify_deps_use_string_order :
    ((buildDependencyGraph c1Tasks).filter
        (fun t => t.markers.contains "VERIFY")).map Task.dependencies
      = [["1.1", "1.10", "1.11"]]
    ∧ (c1Tasks.filter (fun t => ! t.markers.contains "VERIFY")).length = 11
    ∧ ((buildDependencyGraph c1Tasks).filter (fun t => t.id = "1.2")).map Task.dependencies
      = [["1.12"]] := by
  refine ⟨by decide, by decide, by decide⟩

/-- C2 (code bug).  Under the predefined strategy the partitioner
performs no conflict resolution at all: on the repository's own
conflict fixture the contested file `tests/test_importer.py` stays in
both groups' owned-files sets — it is neither awarded to the group with
more referencing tasks nor stripped from the loser (and the source has
no conflict-warning code path). -/
theorem c2_no_conflict_resolution :
    (runPlanner c2Tasks 4 (some c2Decls) none none "file-ownership").map
        (fun r => r.groups.map RGroup.ownedFiles)
      = some [["tests/conftest.py", "tests/test_importer.py"],
              ["src/importer.py", "tests/test_importer.py"]] := by
  decide

/-- C3 (code bug).  The disjoint-ownership invariant fails under the
predefined strategy: on the conflict fixture the final partition's two
groups share the file `tests/test_importer.py`. -/
theorem c3_predefined_ownership_not_disjoint :
    (runPlanner c2Tasks 4 (some c2Decls) none none "file-ownership").map
        (fun r => pairwiseDisjointOwned (r.groups.map RGroup.ownedFiles))
      = some false := by
  decide

/-- C4 (code bug).  Rebalancing strips a moved task's files from the
source group's owned set even when other tasks remaining there still
need them: with tasks `1.1`,`1.2`,`1.3` on file `a` and `1.4` on `b`
under a cap of 2, the move of `1.3` leaves group 0 holding `1.1` and
`1.2` with an empty owned set, while `a` is claimed only by group 1 —
so tasks whose files are claimed by exactly one group are not in that
group, and their files are not a subset of their own group's owned
files. -/
theorem c4_rebalance_strips_needed_files :
    ((buildGroupsAutomatic c4Tasks 2).1.map
        (fun g => (g.tasks.map Task.id, g.ownedFiles)))
      = [(["1.1", "1.2"], []), (["1.4", "1.3"], ["b", "a"])]
    ∧ ((buildGroupsAutomatic c4Tasks 2).1.map
        (fun g => g.tasks.any (fun t => t.files.contains "a")))
      = [true, true]
    ∧ ((buildGroupsAutomatic c4Tasks 2).1.map
        (fun g => g.ownedFiles.contains "a"))
      = [false, true] := by
  refine ⟨by decide, by decide, by decide⟩

/-- Membership after an insert-if-absent set insertion. -/
theorem mem_of_insertIfAbsent [DecidableEq α] (l : List α) (a x : α)
    (h : x ∈ insertIfAbsent l a) : x ∈ l ∨ x = a := by
  unfold insertIfAbsent at h
  by_cases ha : a ∈ l
  · rw [if_pos ha] at h
    exact Or.inl h
  · rw [if_neg ha] at h
    rcases List.mem_append.mp h with h' | h'
    · exact Or.inl h'
    · exact Or.inr (List.mem_singleton.mp h')

/-- C6 (confirmed).  One step of the automatic strategy on a task with
declared files: when exactly one existing group owns any of the task's
files, the task joins that group (appended to its task list), the
group's owned files and the global ownership map are extended with the
task's files, and the serial list is untouched; when two or more
distinct groups own them, groups and ownership map are unchanged and
the task is deferred to the serial list. -/
theorem c6_automatic_join_or_defer (maxT : Nat) (st : AutoState) (t : Task)
    (hne : ¬ taskFileSet t = []) :
    (∀ g, owningOf st.fo (taskFileSet t) = [g] →
      autoStep maxT st t
        = ⟨modifyAt g (fun gr =>
              { gr with tasks := gr.tasks ++ [t],
                        ownedFiles := setUnion gr.ownedFiles (taskFileSet t) }) st.groups,
           (taskFileSet t).foldl (fun fo f => assocInsert fo f g) st.fo,
           st.serial⟩)
    ∧ (2 ≤ (owningOf st.fo (taskFileSet t)).length →
      autoStep maxT st t = ⟨st.groups, st.fo, st.serial ++ [t]⟩) := by
  constructor
  · intro g hg
    simp only [autoStep]
    rw [if_neg hne, hg]
    simp only [List.length_singleton]
    norm_num
    rfl
  · intro h2
    simp only [autoStep]
    rw [if_neg hne]
    have h0 : ¬ (owningOf st.fo (taskFileSet t)).length = 0 := by omega
    have h1 : ¬ (owningOf st.fo (taskFileSet t)).length = 1 := by omega
    rw [if_neg h0, if_neg h1]

/-- Witness for C6: a group owning file `a` is the unique owner of the
files of task `1.5`, so the step adds the task to that group. -/
theorem c6_automatic_join_or_defer_witness :
    (¬ taskFileSet (mkTask "1.5" 1 ["a"] [] false) = [])
    ∧ autoStep 4 ⟨[⟨[], ["a"], [], none⟩], [("a", 0)], []⟩ (mkTask "1.5" 1 ["a"] [] false)
      = ⟨modifyAt 0 (fun gr =>
            { gr with tasks := gr.tasks ++ [mkTask "1.5" 1 ["a"] [] false],
                      ownedFiles := setUnion gr.ownedFiles
                        (taskFileSet (mkTask "1.5" 1 ["a"] [] false)) })
          [⟨[], ["a"], [], none⟩],
         (taskFileSet (mkTask "1.5" 1 ["a"] [] false)).foldl
           (fun fo f => assocInsert fo f 0) [("a", 0)],
         []⟩ :=
  ⟨by decide,
   (c6_automatic_join_or_defer 4 ⟨[⟨[], ["a"], [], none⟩], [("a", 0)], []⟩
     (mkTask "1.5" 1 ["a"] [] false) (by decide)).1 0 (by decide)⟩

/-- The inner member loop of the predefined builder never touches the
accumulated groups. -/
theorem preMember_groups_const (pg : PGroup) :
    ∀ (tids : List String) (st : PreState × List Task),
      (tids.foldl (preMember pg) st).1.groups = st.1.groups := by
  intro tids
  induction tids with
  | nil => intro st; rfl
  | cons a as ih =>
    intro st
    rw [List.foldl_cons, ih]
    unfold preMember
    split
    · rfl
    · split
      · rfl
      · rfl

/-- Any id recorded by the inner member loop is either inherited or one
of the processed member ids. -/
theorem preMember_groupedIds_sub (pg : PGroup) :
    ∀ (tids : List String) (st : PreState × List Task) (x : String),
      x ∈ (tids.foldl (preMember pg) st).1.groupedIds →
      x ∈ st.1.groupedIds ∨ x ∈ tids := by
  intro tids
  induction tids with
  | nil => intro st x hx; exact Or.inl hx
  | cons a as ih =>
    intro st x hx
    rw [List.foldl_cons] at hx
    rcases ih (preMember pg st a) x hx with h | h
    · unfold preMember at h
      split at h
      · exact Or.inl h
      · split at h
        · exact Or.inl h
        · rcases mem_of_insertIfAbsent _ _ _ h with h' | h'
          · exact Or.inl h'
          · exact Or.inr (h' ▸ List.mem_cons_self a as)
    · exact Or.inr (List.mem_cons_of_mem a h)

/-- Any id recorded by the predefined builder's outer loop comes from
some processed declared group's member list. -/
theorem preStep_groupedIds_sub :
    ∀ (pgs : List PGroup) (st : PreState) (x : String),
      x ∈ (pgs.foldl preStep st).groupedIds →
      x ∈ st.groupedIds ∨ ∃ pg ∈ pgs, x ∈ pg.taskIds := by
  intro pgs
  induction pgs with
  | nil => intro st x hx; exact Or.inl hx
  | cons pg pgs ih =>
    intro st x hx
    rw [List.foldl_cons] at hx
    rcases ih (preStep st pg) x hx with h | h
    · have hgid : (preStep st pg).groupedIds
          = ((pg.taskIds.foldl (preMember pg) (st, [])).1).groupedIds := by
        unfold preStep
        by_cases he : (pg.taskIds.foldl (preMember pg) (st, [])).2 = []
        · rw [if_pos he]
        · rw [if_neg he]
      rw [hgid] at h
      rcases preMember_groupedIds_sub pg pg.taskIds (st, []) x h with h' | h'
      · exact Or.inl h'
      · exact Or.inr ⟨pg, List.mem_cons_self pg pgs, h'⟩
    · obtain ⟨pg', hpg', hx'⟩ := h
      exact Or.inr ⟨pg', List.mem_cons_of_mem pg hpg', hx'⟩

/-- Any group emitted by the predefined builder's outer loop is either
inherited or carries the name of some processed declared group. -/
theorem preStep_groups_from :
    ∀ (pgs : List PGroup) (st : PreState) (g : Group),
      g ∈ (pgs.foldl preStep st).groups →
      g ∈ st.groups ∨ ∃ pg ∈ pgs, g.predefinedName = some pg.name := by
  intro pgs
  induction pgs with
  | nil => intro st g hg; exact Or.inl hg
  | cons pg pgs ih =>
    intro st g hg
    rw [List.foldl_cons] at hg
    rcases ih (preStep st pg) g hg with h | h
    · revert h
      unfold preStep
      by_cases he : (pg.taskIds.foldl (preMember pg) (st, [])).2 = []
      · rw [if_pos he]
        intro h
        rw [preMember_groups_const pg pg.taskIds (st, [])] at h
        exact Or.inl h
      · rw [if_neg he]
        intro h
        simp only [] at h
        rcases List.mem_append.mp h with h' | h'
        · rw [preMember_groups_const pg pg.taskIds (st, [])] at h'
          exact Or.inl h'
        · rcases List.mem_singleton.mp h' with rfl
          exact Or.inr ⟨pg, List.mem_cons_self pg pgs, rfl⟩
    · obtain ⟨pg', hpg', hg'⟩ := h
      exact Or.inr ⟨pg', List.mem_cons_of_mem pg hpg', hg'⟩

/-- C10 (confirmed).  Under the predefined strategy only the first
`max_teammates` declared groups can become groups (every produced group
carries the name of one of them), and every incomplete non-verification
task whose id is claimed by none of those first `max_teammates`
declared groups lands on the serial list. -/
theorem c10_predefined_cap (pre : List PGroup) (allTasks parallel : List Task)
    (maxT : Nat) :
    (∀ g ∈ (buildGroupsFromPredefined pre allTasks parallel maxT).1,
      ∃ pg ∈ pre.take maxT, g.predefinedName = some pg.name)
    ∧ (∀ t ∈ parallel,
      (∀ pg ∈ pre.take maxT, ¬ t.id ∈ pg.taskIds) →
      t ∈ (buildGroupsFromPredefined pre allTasks parallel maxT).2) := by
  constructor
  · intro g hg
    unfold buildGroupsFromPredefined at hg
    rcases preStep_groups_from (pre.take maxT) ⟨tmapOf allTasks, [], []⟩ g hg with h | h
    · exact absurd h (List.not_mem_nil g)
    · exact h
  · intro t ht hnone
    unfold buildGroupsFromPredefined
    rw [List.mem_filter]
    refine ⟨ht, ?_⟩
    rw [Bool.not_eq_eq_eq_not, Bool.not_true, decide_eq_false_iff_not]
    intro hmem
    rcases preStep_groupedIds_sub (pre.take maxT) ⟨tmapOf allTasks, [], []⟩ t.id hmem with h | h
    · exact absurd h (List.not_mem_nil t.id)
    · obtain ⟨pg, hpg, hid⟩ := h
      exact hnone pg hpg hid

/-- Witness for C10: with a cap of one group, task `1.3` (declared only
in the second group) becomes serial. -/
theorem c10_predefined_cap_witness :
    (mkTask "1.3" 1 ["src/importer.py"] [] false ∈ c2Tasks)
    ∧ mkTask "1.3" 1 ["src/importer.py"] [] false
      ∈ (buildGroupsFromPredefined c2Decls c2Tasks c2Tasks 1).2 :=
  ⟨by decide,
   (c10_predefined_cap c2Decls c2Tasks c2Tasks 1).2
     (mkTask "1.3" 1 ["src/importer.py"] [] false) (by decide) (by decide)⟩

/-- Lexicographic code-point comparison is transitive. -/
theorem listCharLt_trans : ∀ a b c : List Char,
    listCharLt a b = true → listCharLt b c = true → listCharLt a c = true := by
  intro a
  induction a with
  | nil =>
    intro b c hab hbc
    cases b with
    | nil => simp [listCharLt] at hab
    | cons y ys =>
      cases c with
      | nil => simp [listCharLt] at hbc
      | cons z zs => rfl
  | cons x xs ih =>
    intro b c hab hbc
    cases b with
    | nil => simp [listCharLt] at hab
    | cons y ys =>
      cases c with
      | nil => simp [listCharLt] at hbc
      | cons z zs =>
        simp only [listCharLt] at hab hbc ⊢
        by_cases h1 : x.toNat < y.toNat
        · by_cases h2 : y.toNat < z.toNat
          · rw [if_pos (by omega : x.toNat < z.toNat)]
          · rw [if_neg h2] at hbc
            by_cases h3 : z.toNat < y.toNat
            · rw [if_pos h3] at hbc; simp at hbc
            · rw [if_pos (by omega : x.toNat < z.toNat)]
        · rw [if_neg h1] at hab
          by_cases h1' : y.toNat < x.toNat
          · rw [if_pos h1'] at hab; simp at hab
          · rw [if_neg h1'] at hab
            by_cases h2 : y.toNat < z.toNat
            · rw [if_pos (by omega : x.toNat < z.toNat)]
            · rw [if_neg h2] at hbc
              by_cases h3 : z.toNat < y.toNat
              · rw [if_pos h3] at hbc; simp at hbc
              · rw [if_neg h3] at hbc
                rw [if_neg (by omega : ¬ x.toNat < z.toNat),
                    if_neg (by omega : ¬ z.toNat < x.toNat)]
                exact ih ys zs hab hbc

/-- Lexicographic code-point comparison is asymmetric. -/
theorem listCharLt_asymm : ∀ a b : List Char,
    listCharLt a b = true → listCharLt b a = false := by
  intro a
  induction a with
  | nil =>
    intro b hab
    cases b with
    | nil => simp [listCharLt] at hab
    | cons y ys => rfl
  | cons x xs ih =>
    intro b hab
    cases b with
    | nil => simp [listCharLt] at hab
    | cons y ys =>
      simp only [listCharLt] at hab ⊢
      by_cases h1 : x.toNat < y.toNat
      · rw [if_neg (by omega : ¬ y.toNat < x.toNat), if_pos h1]
      · rw [if_neg h1] at hab
        by_cases h1' : y.toNat < x.toNat
        · rw [if_pos h1'] at hab; simp at hab
        · rw [if_neg h1'] at hab
          rw [if_neg h1', if_neg h1]
          exact ih ys hab

/-- Two lists neither of which is lexicographically below the other are
equal. -/
theorem listCharLt_conn : ∀ a b : List Char,
    listCharLt a b = false → listCharLt b a = false → a = b := by
  intro a
  induction a with
  | nil =>
    intro b hab _
    cases b with
    | nil => rfl
    | cons y ys => simp [listCharLt] at hab
  | cons x xs ih =>
    intro b hab hba
    cases b with
    | nil => simp [listCharLt] at hba
    | cons y ys =>
      simp only [listCharLt] at hab hba
      by_cases h1 : x.toNat < y.toNat
      · rw [if_pos h1] at hab; simp at hab
      · rw [if_neg h1] at hab
        by_cases h1' : y.toNat < x.toNat
        · rw [if_pos h1'] at hba; simp at hba
        · rw [if_neg h1'] at hab
          rw [if_neg h1', if_neg h1] at hba
          have hxy : x = y := Char.ext (UInt32.ext (show x.toNat = y.toNat by omega))
          rw [hxy, ih ys hab hba]

/-- Python string comparison is antisymmetric in its negations. -/
theorem strLtB_conn (a b : String) (hab : strLtB a b = false)
    (hba : strLtB b a = false) : a = b :=
  String.ext (listCharLt_conn a.data b.data hab hba)

/-- Inserting into a sorted list keeps it a permutation of the cons. -/
theorem perm_insertSorted (lt : α → α → Bool) (x : α) :
    ∀ l : List α, (insertSorted lt x l).Perm (x :: l) := by
  intro l
  induction l with
  | nil => exact List.Perm.refl _
  | cons y ys ih =>
    unfold insertSorted
    by_cases h : lt x y = true
    · rw [if_pos h]
    · rw [if_neg h]
      exact ((ih.cons y).trans (List.Perm.swap x y ys)).symm.symm

/-- The stable insertion sort permutes its input. -/
theorem perm_sortBy (lt : α → α → Bool) (l : List α) : (sortBy lt l).Perm l := by
  suffices h : ∀ (l acc : List α), (l.foldl (fun acc x => insertSorted lt x acc) acc).Perm (acc ++ l) by
    have := h l []
    simpa using this
  intro l
  induction l with
  | nil => intro acc; simp
  | cons x xs ih =>
    intro acc
    rw [List.foldl_cons]
    refine (ih (insertSorted lt x acc)).trans ?_
    have h1 : (insertSorted lt x acc ++ xs).Perm ((x :: acc) ++ xs) :=
      (perm_insertSorted lt x acc).append_right xs
    refine h1.trans ?_
    simp only [List.cons_append]
    exact List.perm_middle.symm

/-- Inserting below the first strictly greater element preserves
sortedness by the reflexive closure of an asymmetric transitive
comparison. -/
theorem sorted_insertSorted (lt : α → α → Bool)
    (hasymm : ∀ a b, lt a b = true → lt b a = false)
    (htrans : ∀ a b c, lt a b = true → lt b c = true → lt a c = true) (x : α) :
    ∀ l : List α, l.Sorted (fun a b => lt b a = false) →
      (insertSorted lt x l).Sorted (fun a b => lt b a = false) := by
  intro l
  induction l with
  | nil => intro _; simp [insertSorted]
  | cons y ys ih =>
    intro hs
    rw [List.sorted_cons] at hs
    unfold insertSorted
    by_cases h : lt x y = true
    · rw [if_pos h, List.sorted_cons]
      refine ⟨?_, ?_⟩
      · intro b hb
        rcases List.mem_cons.mp hb with rfl | hb'
        · exact hasymm _ _ h
        · have hby : lt b y = false := hs.1 b hb'
          cases hx : lt b x with
          | false => rfl
          | true =>
            have htr := htrans b x y hx h
            rw [htr] at hby
            simp at hby
      · rw [List.sorted_cons]
        exact hs
    · rw [if_neg h, List.sorted_cons]
      refine ⟨?_, ih hs.2⟩
      intro b hb
      have hmem := (perm_insertSorted lt x ys).mem_iff.mp hb
      rcases List.mem_cons.mp hmem with rfl | hb'
      · cases hx : lt b y with
        | false => rfl
        | true => exact absurd hx h
      · exact hs.1 b hb'

/-- The insertion sort produces a list sorted by the reflexive closure
of an asymmetric transitive comparison. -/
theorem sorted_sortBy (lt : α → α → Bool)
    (hasymm : ∀ a b, lt a b = true → lt b a = false)
    (htrans : ∀ a b c, lt a b = true → lt b c = true → lt a c = true)
    (l : List α) : (sortBy lt l).Sorted (fun a b => lt b a = false) := by
  unfold sortBy
  suffices h : ∀ (l acc : List α),
      acc.Sorted (fun a b => lt b a = false) →
      (l.foldl (fun acc x => insertSorted lt x acc) acc).Sorted
        (fun a b => lt b a = false) by
    exact h l [] (by simp)
  intro l
  induction l with
  | nil => intro acc hacc; exact hacc
  | cons x xs ih =>
    intro acc hacc
    rw [List.foldl_cons]
    exact ih _ (sorted_insertSorted lt hasymm htrans x acc hacc)

/-- `sorted` on strings is sorted by the non-strict code-point order. -/
theorem sorted_sortStrings (l : List String) :
    (sortStrings l).Sorted (fun a b => strLtB b a = false) :=
  sorted_sortBy strLtB (fun a b h => listCharLt_asymm a.data b.data h)
    (fun a b c h1 h2 => listCharLt_trans a.data b.data c.data h1 h2) l

/-- C8 (confirmed).  The plan is a deterministic function of its
inputs: two runs of the planner on identical parsed tasks, identical
declared-group annotations (standing for the same document text),
identical max-group setting, strategy and discovered configuration
yield identical plans; moreover the emitted owned-files serialization
(`sorted` over a Python set) is invariant under the order in which the
set's elements are enumerated, so no set-iteration nondeterminism can
reach the output. -/
theorem c8_planner_deterministic :
    (∀ (t₁ t₂ : List Task) (m₁ m₂ : Nat) (d₁ d₂ : Option (List PGroup))
       (q₁ q₂ : Option QualityCommands) (v₁ v₂ : Option VerifyQuality)
       (s₁ s₂ : String),
      t₁ = t₂ → m₁ = m₂ → d₁ = d₂ → q₁ = q₂ → v₁ = v₂ → s₁ = s₂ →
      runPlanner t₁ m₁ d₁ q₁ v₁ s₁ = runPlanner t₂ m₂ d₂ q₂ v₂ s₂)
    ∧ (∀ l₁ l₂ : List String, l₁.Perm l₂ → sortStrings l₁ = sortStrings l₂) := by
  constructor
  · intro t₁ t₂ m₁ m₂ d₁ d₂ q₁ q₂ v₁ v₂ s₁ s₂ ht hm hd hq hv hs
    rw [ht, hm, hd, hq, hv, hs]
  · intro l₁ l₂ hp
    haveI : IsAntisymm String (fun a b => strLtB b a = false) :=
      ⟨fun a b h1 h2 => strLtB_conn a b h2 h1⟩
    refine List.eq_of_perm_of_sorted ?_ (sorted_sortStrings l₁) (sorted_sortStrings l₂)
    exact (perm_sortBy strLtB l₁).trans (hp.trans (perm_sortBy strLtB l₂).symm)

/-- Witness for C8: a re-run on the very same inputs gives the same
plan, and the owned-files serialization agrees on two enumeration
orders of the same set. -/
theorem c8_planner_deterministic_witness :
    runPlanner c5Tasks 2 none none none "worktree"
      = runPlanner c5Tasks 2 none none none "worktree"
    ∧ sortStrings ["b", "a"] = sortStrings ["a", "b"] :=
  ⟨c8_planner_deterministic.1 c5Tasks c5Tasks 2 2 none none none none none none
      "worktree" "worktree" rfl rfl rfl rfl rfl rfl,
   c8_planner_deterministic.2 ["b", "a"] ["a", "b"] (by decide)⟩

/-- Replacing one index does not change a list's length. -/
theorem length_modifyAt (f : α → α) : ∀ (l : List α) (i : Nat),
    (modifyAt i f l).length = l.length := by
  intro l
  induction l with
  | nil => intro i; rfl
  | cons x xs ih =>
    intro i
    by_cases h : i = 0
    · simp [modifyAt, h]
    · simp [modifyAt, h, ih]

/-- Index access after replacing one index. -/
theorem getElem?_modifyAt (f : α → α) : ∀ (l : List α) (i j : Nat),
    (modifyAt i f l)[j]? = if j = i then (l[j]?).map f else l[j]? := by
  intro l
  induction l with
  | nil =>
    intro i j
    simp only [modifyAt]
    split <;> simp
  | cons x xs ih =>
    intro i j
    cases i with
    | zero =>
      cases j with
      | zero => simp [modifyAt]
      | succ j' => simp [modifyAt]
    | succ i' =>
      cases j with
      | zero => simp [modifyAt]
      | succ j' =>
        simp only [modifyAt, if_neg (Nat.succ_ne_zero i'), Nat.succ_sub_one,
          List.getElem?_cons_succ]
        rw [ih i' j']
        by_cases h : j' = i'
        · rw [if_pos h, if_pos (by omega)]
        · rw [if_neg h, if_neg (by omega)]

/-- Index access in an enumerated list. -/
theorem getElem?_enumFrom : ∀ (l : List α) (i0 k : Nat),
    (enumFrom i0 l)[k]? = (l[k]?).map (fun a => (i0 + k, a)) := by
  intro l
  induction l with
  | nil => intro i0 k; simp [enumFrom]
  | cons x xs ih =>
    intro i0 k
    cases k with
    | zero => simp [enumFrom]
    | succ k' =>
      simp only [enumFrom, List.getElem?_cons_succ]
      rw [ih (i0 + 1) k']
      have harith : i0 + 1 + k' = i0 + (k' + 1) := by omega
      rw [harith]

/-- The worktree fold preserves the number of groups. -/
theorem wt_fold_length : ∀ (l : List (Nat × Task)) (gs : List Group),
    (l.foldl wtStep gs).length = gs.length := by
  intro l
  induction l with
  | nil => intro gs; rfl
  | cons p ps ih =>
    intro gs
    rw [List.foldl_cons, ih (wtStep gs p)]
    simp [wtStep, length_modifyAt]

/-- Round-robin characterization of the worktree fold: group `j` ends
with its initial tasks followed by exactly the enumerated tasks whose
index is `j` modulo the group count. -/
theorem wt_fold_tasks (n : Nat) : ∀ (l : List (Nat × Task)) (gs : List Group),
    gs.length = n → ∀ j : Nat,
    ((l.foldl wtStep gs)[j]?).map Group.tasks
      = (gs[j]?).map (fun g => g.tasks ++ (l.filter (fun p => p.1 % n == j)).map Prod.snd) := by
  intro l
  induction l with
  | nil =>
    intro gs hgs j
    simp only [List.foldl_nil, List.filter_nil, List.map_nil]
    cases gs[j]? <;> simp
  | cons p ps ih =>
    intro gs hgs j
    rw [List.foldl_cons]
    have hlen' : (wtStep gs p).length = n := by simp [wtStep, length_modifyAt, hgs]
    rw [ih (wtStep gs p) hlen' j]
    have hw : (wtStep gs p)[j]? = if j = p.1 % n then
        (gs[j]?).map (fun g => { g with tasks := g.tasks ++ [p.2], ownedFiles := setUnion g.ownedFiles p.2.files })
      else gs[j]? := by
      simp only [wtStep, hgs]
      exact getElem?_modifyAt _ gs _ j
    rw [hw]
    by_cases hj : j = p.1 % n
    · rw [if_pos hj]
      have hfil : ((p :: ps).filter (fun q => q.1 % n == j))
          = p :: ps.filter (fun q => q.1 % n == j) := by
        rw [List.filter_cons, if_pos (by simp [hj])]
      rw [hfil]
      cases hgj : gs[j]? with
      | none => simp
      | some g => simp
    · rw [if_neg hj]
      have hfil : ((p :: ps).filter (fun q => q.1 % n == j))
          = ps.filter (fun q => q.1 % n == j) := by
        rw [List.filter_cons, if_neg (by simp; omega)]
      rw [hfil]

/-- The `(phase, id)` sort key is asymmetric. -/
theorem taskLt_asymm (a b : Task) (h : taskLt a b = true) : taskLt b a = false := by
  simp only [taskLt, Bool.or_eq_true, Bool.and_eq_true, decide_eq_true_eq,
    beq_iff_eq] at h
  rcases h with h | ⟨hp, hid⟩
  · have h1 : decide (b.phase < a.phase) = false := decide_eq_false (by omega)
    have h2 : (b.phase == a.phase) = false := by rw [beq_eq_false_iff_ne]; omega
    simp [taskLt, h1, h2]
  · have h1 : decide (b.phase < a.phase) = false := decide_eq_false (by omega)
    have h2 : strLtB b.id a.id = false := listCharLt_asymm _ _ hid
    simp [taskLt, h1, h2]

/-- The `(phase, id)` sort key is transitive. -/
theorem taskLt_trans (a b c : Task) (h1 : taskLt a b = true)
    (h2 : taskLt b c = true) : taskLt a c = true := by
  simp only [taskLt, Bool.or_eq_true, Bool.and_eq_true, decide_eq_true_eq,
    beq_iff_eq] at h1 h2 ⊢
  rcases h1 with h1 | ⟨hp1, hid1⟩
  · rcases h2 with h2 | ⟨hp2, hid2⟩
    · exact Or.inl (by omega)
    · exact Or.inl (by omega)
  · rcases h2 with h2 | ⟨hp2, hid2⟩
    · exact Or.inl (by omega)
    · exact Or.inr ⟨by omega, listCharLt_trans _ _ _ hid1 hid2⟩

/-- C7 (code bug).  The worktree builder sorts by
`(phase, id-as-Python-string)`, not by the numeric `(phase, id)` order
the spec fixes for all id comparisons: on tasks `1.1`, `1.2`, `1.10`
with a cap of two groups, the code's round-robin yields groups
`[1.1, 1.2]` / `[1.10]` (string order places "1.10" before "1.2"),
whereas the claimed numeric ordering yields `[1.1, 1.10]` / `[1.2]`.
The remaining parts of the claim hold on this path: the serial list is
always empty and an empty task list yields zero groups without error. -/
theorem c7_worktree_string_order_bug :
    ((buildGroupsWorktree c7Pts 2).1.map (fun g => g.tasks.map Task.id))
      = [["1.1", "1.2"], ["1.10"]]
    ∧ ((buildGroupsWorktreeNumeric c7Pts 2).1.map (fun g => g.tasks.map Task.id))
      = [["1.1", "1.10"], ["1.2"]]
    ∧ (buildGroupsWorktree c7Pts 2).2 = []
    ∧ (buildGroupsWorktree ([] : List Task) 2).1 = [] := by
  refine ⟨by decide, by decide, by decide, by decide⟩

/-- A successful literal match means the line is the pattern followed
by the returned remainder. -/
theorem matchAt_eq_some (p : List Char) :
    ∀ l r : List Char, matchAt p l = some r → l = p ++ r := by
  induction p with
  | nil =>
    intro l r h
    simp [matchAt] at h
    simp [h]
  | cons c cs ih =>
    intro l r h
    cases l with
    | nil => simp [matchAt] at h
    | cons d ds =>
      simp only [matchAt] at h
      by_cases hcd : c = d
      · rw [if_pos hcd] at h
        subst hcd
        simp [ih ds r h]
      · rw [if_neg hcd] at h
        exact absurd h (by simp)

/-- A line that is already checked for some id cannot match the
unchecked pattern of any id (the fourth characters differ), so the
substitution leaves it unchanged. -/
theorem markLine_of_already (A B line : String)
    (h : alreadyMatches A line = true) : markLine B line = line := by
  simp only [alreadyMatches] at h
  simp only [markLine]
  cases hy : matchAt ("- [ ] " ++ B).data line.data with
  | none => rfl
  | some restY =>
    cases hx : matchAt ("- [x] " ++ A).data line.data with
    | none => rw [hx] at h; simp at h
    | some restX =>
      have hshape := matchAt_eq_some _ _ _ hx
      have hshape' := matchAt_eq_some _ _ _ hy
      rw [String.data_append] at hshape hshape'
      rw [hshape] at hshape'
      have hx4 : "- [x] ".data = ['-', ' ', '[', 'x', ']', ' '] := by decide
      have hy4 : "- [ ] ".data = ['-', ' ', '[', ' ', ']', ' '] := by decide
      rw [hx4] at hshape'
      rw [hy4] at hshape'
      simp only [List.cons_append, List.nil_append, List.append_assoc,
        List.cons.injEq] at hshape'
      exact absurd hshape'.2.2.2.1 (by decide)

/-- Processing any id preserves the existence of an already-checked
line for `A`. -/
theorem anyAlready_processOne (A B : String) (s : MarkState)
    (h : s.lines.any (alreadyMatches A) = true) :
    (processOne s B).lines.any (alreadyMatches A) = true := by
  by_cases hB : s.lines.any (alreadyMatches B) = true
  · simp only [processOne, if_pos hB]
    exact h
  · by_cases hc : 0 < (s.lines.filter (incompleteMatches B)).length
    · simp only [processOne, if_neg hB, if_pos hc]
      rw [List.any_eq_true] at h ⊢
      obtain ⟨l, hl, hal⟩ := h
      refine ⟨l, ?_, hal⟩
      rw [List.mem_map]
      exact ⟨l, hl, markLine_of_already A B l hal⟩
    · simp only [processOne, if_neg hB, if_neg hc]
      exact h

/-- Folding any list of ids preserves the existence of an
already-checked line for `A`. -/
theorem anyAlready_foldl (A : String) (ids : List String) :
    ∀ s : MarkState, s.lines.any (alreadyMatches A) = true →
      (ids.foldl processOne s).lines.any (alreadyMatches A) = true := by
  induction ids with
  | nil => intro s h; exact h
  | cons b bs ih =>
    intro s h
    rw [List.foldl_cons]
    exact ih _ (anyAlready_processOne A b s h)

/-- C9 (confirmed).  Completion marking is idempotent for
already-completed tasks: if the document has a checked checkbox line
for id `A`, then wherever `A` occurs in the marking run, its step
leaves the document lines, the `marked` counter and the `notFound`
counter untouched and only increments `alreadyComplete`. -/
theorem c9_marking_idempotent_on_checked (ids₁ ids₂ : List String) (A : String)
    (ls : List String) (h : ls.any (alreadyMatches A) = true) :
    markRun (ids₁ ++ A :: ids₂) ls
      = ids₂.foldl processOne
          ⟨(ids₁.foldl processOne ⟨ls, 0, 0, 0⟩).lines,
           (ids₁.foldl processOne ⟨ls, 0, 0, 0⟩).marked,
           (ids₁.foldl processOne ⟨ls, 0, 0, 0⟩).alreadyComplete + 1,
           (ids₁.foldl processOne ⟨ls, 0, 0, 0⟩).notFound⟩ := by
  have hA := anyAlready_foldl A ids₁ ⟨ls, 0, 0, 0⟩ h
  have hstep : processOne (ids₁.foldl processOne ⟨ls, 0, 0, 0⟩) A
      = ⟨(ids₁.foldl processOne ⟨ls, 0, 0, 0⟩).lines,
         (ids₁.foldl processOne ⟨ls, 0, 0, 0⟩).marked,
         (ids₁.foldl processOne ⟨ls, 0, 0, 0⟩).alreadyComplete + 1,
         (ids₁.foldl processOne ⟨ls, 0, 0, 0⟩).notFound⟩ := by
    simp only [processOne, if_pos hA]
  unfold markRun
  rw [List.foldl_append, List.foldl_cons, hstep]

/-- Witness for C9 at a concrete document: id `1.1` is already checked,
id `2.1` is marked first, and the `1.1` step only bumps
`alreadyComplete`. -/
theorem c9_marking_idempotent_on_checked_witness :
    (["- [x] 1.1 done", "- [ ] 2.1 todo"].any (alreadyMatches "1.1") = true)
    ∧ markRun (["2.1"] ++ "1.1" :: []) ["- [x] 1.1 done", "- [ ] 2.1 todo"]
      = ([] : List String).foldl processOne
          ⟨((["2.1"] : List String).foldl processOne ⟨["- [x] 1.1 done", "- [ ] 2.1 todo"], 0, 0, 0⟩).lines,
           ((["2.1"] : List String).foldl processOne ⟨["- [x] 1.1 done", "- [ ] 2.1 todo"], 0, 0, 0⟩).marked,
           ((["2.1"] : List String).foldl processOne ⟨["- [x] 1.1 done", "- [ ] 2.1 todo"], 0, 0, 0⟩).alreadyComplete + 1,
           ((["2.1"] : List String).foldl processOne ⟨["- [x] 1.1 done", "- [ ] 2.1 todo"], 0, 0, 0⟩).notFound⟩ :=
  ⟨by decide,
   c9_marking_idempotent_on_checked ["2.1"] [] "1.1"
     ["- [x] 1.1 done", "- [ ] 2.1 todo"] (by decide)⟩

/-- Membership after an index replacement: either an untouched element
or the image of an element. -/
theorem mem_modifyAt (f : α → α) :
    ∀ (l : List α) (i : Nat) (x : α), x ∈ modifyAt i f l →
      x ∈ l ∨ ∃ y ∈ l, x = f y := by
  intro l
  induction l with
  | nil => intro i x hx; simp [modifyAt] at hx
  | cons a as ih =>
    intro i x hx
    by_cases h0 : i = 0
    · rw [show modifyAt i f (a :: as) = f a :: as by simp [modifyAt, h0]] at hx
      rcases List.mem_cons.mp hx with rfl | hx'
      · exact Or.inr ⟨a, List.mem_cons_self a as, rfl⟩
      · exact Or.inl (List.mem_cons_of_mem a hx')
    · rw [show modifyAt i f (a :: as) = a :: modifyAt (i - 1) f as by
        simp [modifyAt, h0]] at hx
      rcases List.mem_cons.mp hx with rfl | hx'
      · exact Or.inl (List.mem_cons_self x as)
      · rcases ih (i - 1) x hx' with h | ⟨y, hy, rfl⟩
        · exact Or.inl (List.mem_cons_of_mem a h)
        · exact Or.inr ⟨y, List.mem_cons_of_mem a hy, rfl⟩

/-- Removing an index only removes elements. -/
theorem mem_removeAt : ∀ (l : List α) (i : Nat) (x : α),
    x ∈ removeAt i l → x ∈ l := by
  intro l
  induction l with
  | nil => intro i x hx; simp [removeAt] at hx
  | cons a as ih =>
    intro i x hx
    cases i with
    | zero => exact List.mem_cons_of_mem a hx
    | succ j =>
      rcases List.mem_cons.mp hx with rfl | hx'
      · exact List.mem_cons_self x as
      · exact List.mem_cons_of_mem a (ih j x hx')

/-- The payload of an enumerated element is an element. -/
theorem mem_enumFrom_snd : ∀ (l : List α) (i0 : Nat) (p : Nat × α),
    p ∈ enumFrom i0 l → p.2 ∈ l := by
  intro l
  induction l with
  | nil => intro i0 p hp; simp [enumFrom] at hp
  | cons a as ih =>
    intro i0 p hp
    rcases List.mem_cons.mp hp with rfl | hp'
    · exact List.mem_cons_self a as
    · exact List.mem_cons_of_mem a (ih (i0 + 1) p hp')

/-- Every task placed by the worktree fold comes from the enumerated
input or the seed groups. -/
theorem wtFold_pred (P : Task → Prop) :
    ∀ (l : List (Nat × Task)) (gs : List Group),
      (∀ p ∈ l, P p.2) → (∀ g ∈ gs, ∀ u ∈ g.tasks, P u) →
      ∀ g ∈ l.foldl wtStep gs, ∀ u ∈ g.tasks, P u := by
  intro l
  induction l with
  | nil => intro gs _ hgs; exact hgs
  | cons p ps ih =>
    intro gs hl hgs
    rw [List.foldl_cons]
    refine ih (wtStep gs p) (fun q hq => hl q (List.mem_cons_of_mem p hq)) ?_
    intro g hg u hu
    rcases mem_modifyAt _ gs _ g hg with h | ⟨y, hy, rfl⟩
    · exact hgs g h u hu
    · rcases List.mem_append.mp hu with h' | h'
      · exact hgs y hy u h'
      · rw [List.mem_singleton.mp h']
        exact hl p (List.mem_cons_self p ps)

/-- Every task placed by `claimInto` comes from the previous groups or
is the claimed task. -/
theorem claimInto_pred (P : Task → Prop) (st : AutoState) (target : Nat)
    (t : Task) (tf : List String) (hPt : P t)
    (hgs : ∀ g ∈ st.groups, ∀ u ∈ g.tasks, P u) :
    ∀ g ∈ (claimInto st target t tf).groups, ∀ u ∈ g.tasks, P u := by
  intro g hg u hu
  rcases mem_modifyAt _ st.groups _ g hg with h | ⟨y, hy, rfl⟩
  · exact hgs g h u hu
  · rcases List.mem_append.mp hu with h' | h'
    · exact hgs y hy u h'
    · rw [List.mem_singleton.mp h']
      exact hPt

/-- Every task placed by one automatic step comes from the previous
groups or is the processed task. -/
theorem autoStep_pred (P : Task → Prop) (maxT : Nat) (st : AutoState) (t : Task)
    (hPt : P t) (hgs : ∀ g ∈ st.groups, ∀ u ∈ g.tasks, P u) :
    ∀ g ∈ (autoStep maxT st t).groups, ∀ u ∈ g.tasks, P u := by
  have hgs' : ∀ g ∈ st.groups ++ [emptyGroup], ∀ u ∈ g.tasks, P u := by
    intro g hg u hu
    rcases List.mem_append.mp hg with h | h
    · exact hgs g h u hu
    · rw [List.mem_singleton.mp h] at hu
      simp [emptyGroup] at hu
  simp only [autoStep]
  by_cases hne : taskFileSet t = []
  · rw [if_pos hne]
    intro g hg u hu
    by_cases hemp : st.groups = []
    · rw [if_pos hemp] at hg
      rcases mem_modifyAt _ _ _ g hg with h | ⟨y, hy, rfl⟩
      · exact hgs' g h u hu
      · rcases List.mem_append.mp hu with h' | h'
        · exact hgs' y hy u h'
        · rw [List.mem_singleton.mp h']
          exact hPt
    · rw [if_neg hemp] at hg
      rcases mem_modifyAt _ _ _ g hg with h | ⟨y, hy, rfl⟩
      · exact hgs g h u hu
      · rcases List.mem_append.mp hu with h' | h'
        · exact hgs y hy u h'
        · rw [List.mem_singleton.mp h']
          exact hPt
  · rw [if_neg hne]
    by_cases h0 : (owningOf st.fo (taskFileSet t)).length = 0
    · rw [if_pos h0]
      by_cases hcap : st.groups.length < maxT
      · rw [if_pos hcap]
        exact claimInto_pred P ⟨st.groups ++ [emptyGroup], st.fo, st.serial⟩ _ t _ hPt hgs'
      · rw [if_neg hcap]
        exact claimInto_pred P st _ t _ hPt hgs
    · rw [if_neg h0]
      by_cases h1 : (owningOf st.fo (taskFileSet t)).length = 1
      · rw [if_pos h1]
        exact claimInto_pred P st _ t _ hPt hgs
      · rw [if_neg h1]
        exact hgs

/-- Every task placed by the automatic fold comes from the input or
the seed state. -/
theorem autoFold_pred (P : Task → Prop) (maxT : Nat) :
    ∀ (l : List Task) (st : AutoState),
      (∀ t ∈ l, P t) → (∀ g ∈ st.groups, ∀ u ∈ g.tasks, P u) →
      ∀ g ∈ (l.foldl (autoStep maxT) st).groups, ∀ u ∈ g.tasks, P u := by
  intro l
  induction l with
  | nil => intro st _ hgs; exact hgs
  | cons t ts ih =>
    intro st hl hgs
    rw [List.foldl_cons]
    exact ih (autoStep maxT st t)
      (fun u hu => hl u (List.mem_cons_of_mem t hu))
      (autoStep_pred P maxT st t (hl t (List.mem_cons_self t ts)) hgs)

/-- One accepted rebalancing move only shuffles existing tasks. -/
theorem applyMove_pred (P : Task → Prop) (gs : List Group)
    (fo : List (String × Nat)) (largest smallest tIdx : Nat)
    (hgs : ∀ g ∈ gs, ∀ u ∈ g.tasks, P u) :
    ∀ g ∈ (applyMove gs fo largest smallest tIdx).1, ∀ u ∈ g.tasks, P u := by
  unfold applyMove
  cases hsc : (gs[largest]?).bind (fun g => g.tasks[tIdx]?) with
  | none => exact hgs
  | some t =>
    have hPt : P t := by
      rcases Option.bind_eq_some.mp hsc with ⟨gL, hgL, ht⟩
      exact hgs gL (List.mem_iff_getElem?.mpr ⟨largest, hgL⟩) t
        (List.mem_iff_getElem?.mpr ⟨tIdx, ht⟩)
    intro g hg u hu
    rcases mem_modifyAt _ _ _ g hg with h | ⟨y, hy, rfl⟩
    · rcases mem_modifyAt _ gs _ g h with h' | ⟨z, hz, rfl⟩
      · exact hgs g h' u hu
      · exact hgs z hz u (mem_removeAt _ _ _ hu)
    · rcases List.mem_append.mp hu with h' | h'
      · rcases mem_modifyAt _ gs _ y hy with h'' | ⟨z, hz, rfl⟩
        · exact hgs y h'' u h'
        · exact hgs z hz u (mem_removeAt _ _ _ h')
      · rw [List.mem_singleton.mp h']
        exact hPt

/-- The bounded rebalancing loop only shuffles existing tasks. -/
theorem rebalanceLoop_pred (P : Task → Prop) :
    ∀ (fuel : Nat) (gs : List Group) (fo : List (String × Nat)),
      (∀ g ∈ gs, ∀ u ∈ g.tasks, P u) →
      ∀ g ∈ (rebalanceLoop fuel (gs, fo)).1, ∀ u ∈ g.tasks, P u := by
  intro fuel
  induction fuel with
  | zero => intro gs fo hgs; exact hgs
  | succ n ih =>
    intro gs fo hgs
    unfold rebalanceLoop
    by_cases hc : gs.map (fun g => g.tasks.length) = []
    · rw [if_pos hc]
      exact hgs
    · rw [if_neg hc]
      by_cases hb : maxOfList (gs.map (fun g => g.tasks.length))
          ≤ 2 * Nat.max (minOfList (gs.map (fun g => g.tasks.length))) 1
      · rw [if_pos hb]
        exact hgs
      · rw [if_neg hb]
        show ∀ g ∈ (match (gs[idxOfMax (gs.map (fun g : Group => g.tasks.length))]?).bind (fun gL =>
            (gs[idxOfMin (gs.map (fun g : Group => g.tasks.length))]?).bind
              (fun gS => findMoveIdx gL.tasks gS.ownedFiles)) with
          | none => (gs, fo)
          | some tIdx => rebalanceLoop n (applyMove gs fo
              (idxOfMax (gs.map (fun g : Group => g.tasks.length)))
              (idxOfMin (gs.map (fun g : Group => g.tasks.length))) tIdx)).1,
          ∀ u ∈ g.tasks, P u
        cases hm : (gs[idxOfMax (gs.map (fun g : Group => g.tasks.length))]?).bind (fun gL =>
            (gs[idxOfMin (gs.map (fun g : Group => g.tasks.length))]?).bind
              (fun gS => findMoveIdx gL.tasks gS.ownedFiles)) with
        | none => exact hgs
        | some tIdx =>
          have hmv := applyMove_pred P gs fo (idxOfMax (gs.map (fun g => g.tasks.length)))
            (idxOfMin (gs.map (fun g => g.tasks.length))) tIdx hgs
          have hres := ih (applyMove gs fo (idxOfMax (gs.map (fun g => g.tasks.length)))
            (idxOfMin (gs.map (fun g => g.tasks.length))) tIdx).1
            (applyMove gs fo (idxOfMax (gs.map (fun g => g.tasks.length)))
            (idxOfMin (gs.map (fun g => g.tasks.length))) tIdx).2 hmv
          rw [Prod.mk.eta] at hres
          exact hres

/-- `_rebalance_groups` only shuffles existing tasks. -/
theorem rebalanceGroups_pred (P : Task → Prop) (gs : List Group)
    (fo : List (String × Nat))
    (hgs : ∀ g ∈ gs, ∀ u ∈ g.tasks, P u) :
    ∀ g ∈ (rebalanceGroups gs fo).1, ∀ u ∈ g.tasks, P u := by
  unfold rebalanceGroups
  by_cases h : gs.length < 2
  · rw [if_pos h]
    exact hgs
  · rw [if_neg h]
    exact rebalanceLoop_pred P 10 gs fo hgs

/-- `_add_group_dependencies` does not change any group's task list. -/
theorem addGroupDependencies_tasks_from (gs : List Group) :
    ∀ g' ∈ addGroupDependencies gs, ∃ g ∈ gs, g'.tasks = g.tasks := by
  intro g' hg'
  unfold addGroupDependencies at hg'
  rcases List.mem_map.mp hg' with ⟨p, hp, rfl⟩
  exact ⟨p.2, mem_enumFrom_snd gs 0 p hp, rfl⟩

/-- Every serialized group of `_format_result` records the task list of
one of the working groups. -/
theorem formatResult_groups_from (gs : List Group)
    (serialTasks verifyTasks allTasks incomplete : List Task)
    (qc : Option QualityCommands) (vq : Option VerifyQuality) :
    ∀ rg ∈ (formatResult gs serialTasks verifyTasks allTasks incomplete qc vq).groups,
      ∃ g ∈ gs, rg.taskDetails = g.tasks := by
  intro rg hrg
  have hrg' : rg ∈ (enumFrom 0 gs).foldl formatGroupStep [] := hrg
  clear hrg
  suffices h : ∀ (l : List (Nat × Group)) (acc : List RGroup),
      (∀ rg' ∈ acc, ∃ g ∈ gs, rg'.taskDetails = g.tasks) →
      (∀ p ∈ l, p.2 ∈ gs) →
      ∀ rg' ∈ l.foldl formatGroupStep acc, ∃ g ∈ gs, rg'.taskDetails = g.tasks by
    exact h (enumFrom 0 gs) [] (by simp) (fun p hp => mem_enumFrom_snd gs 0 p hp) rg hrg'
  intro l
  induction l with
  | nil => intro acc hacc _ rg' hrg'; exact hacc rg' hrg'
  | cons p ps ih =>
    intro acc hacc hl rg' hrg'
    rw [List.foldl_cons] at hrg'
    refine ih (formatGroupStep acc p) ?_ (fun q hq => hl q (List.mem_cons_of_mem p hq)) rg' hrg'
    intro rg'' hrg''
    unfold formatGroupStep at hrg''
    by_cases he : p.2.tasks.isEmpty
    · rw [if_pos he] at hrg''
      exact hacc rg'' hrg''
    · rw [if_neg he] at hrg''
      rcases List.mem_append.mp hrg'' with h | h
      · exact hacc rg'' h
      · rw [List.mem_singleton.mp h]
        exact ⟨p.2, hl p (List.mem_cons_self p ps), rfl⟩

/-- C5 (amended claim, proved).  Whenever no valid predefined group
annotations are in effect — i.e. under the worktree and automatic
strategies — no produced group contains a verification-marked task, and
every incomplete verification task's id appears in the global
verification-checkpoint list.  (Under the predefined strategy the
counterexample shows a declared group does receive its declared
verification tasks.) -/
theorem c5_no_verify_in_groups_without_predefined
    (tasks : List Task) (maxT : Nat) (cd : Option (List PGroup))
    (qc : Option QualityCommands) (vq : Option VerifyQuality) (strategy : String)
    (hpre : cd.bind predefinedOf = none) (r : PResult)
    (hr : partitionTasks tasks maxT cd qc vq strategy = some r) :
    (∀ g ∈ r.groups, ∀ t ∈ g.taskDetails, t.markers.contains "VERIFY" = false)
    ∧ (∀ t ∈ tasks, t.completed = false → t.markers.contains "VERIFY" = true →
        t.id ∈ r.verifyTasks.map STask.id) := by
  unfold partitionTasks at hr
  by_cases hinc : (tasks.filter (fun t => ! t.completed)).isEmpty
  · rw [if_pos hinc] at hr
    exact absurd hr (by simp)
  · rw [if_neg hinc] at hr
    simp only [hpre] at hr
    have hparP : ∀ t ∈ (tasks.filter (fun t => ! t.completed)).filter
        (fun t => ! t.markers.contains "VERIFY"), t.markers.contains "VERIFY" = false := by
      intro t ht
      have := (List.mem_filter.mp ht).2
      simp only [Bool.not_eq_true'] at this
      exact this
    have hgroups : ∀ g ∈ (if strategy = "worktree" then
          buildGroupsWorktree ((tasks.filter (fun t => ! t.completed)).filter
            (fun t => ! t.markers.contains "VERIFY")) maxT
        else
          buildGroupsAutomatic ((tasks.filter (fun t => ! t.completed)).filter
            (fun t => ! t.markers.contains "VERIFY")) maxT).1,
        ∀ u ∈ g.tasks, u.markers.contains "VERIFY" = false := by
      by_cases hst : strategy = "worktree"
      · rw [if_pos hst]
        intro g hg u hu
        have hg' := List.mem_filter.mp hg
        refine wtFold_pred (fun u => u.markers.contains "VERIFY" = false) _ _
          ?_ ?_ g hg'.1 u hu
        · intro p hp
          exact hparP p.2 ((perm_sortBy taskLt _).mem_iff.mp (mem_enumFrom_snd _ 0 p hp))
        · intro g' hg'' u' hu'
          rw [List.eq_of_mem_replicate hg''] at hu'
          simp [emptyGroup] at hu'
      · rw [if_neg hst]
        intro g hg u hu
        refine rebalanceGroups_pred (fun u => u.markers.contains "VERIFY" = false) _ _
          ?_ g hg u hu
        refine autoFold_pred (fun u => u.markers.contains "VERIFY" = false) maxT _ _
          ?_ (by intro g' hg'; simp at hg')
        intro t ht
        exact hparP t ((perm_sortBy taskLt _).mem_iff.mp ht)
    have hr' : formatResult
        (addGroupDependencies (if strategy = "worktree" then
          buildGroupsWorktree ((tasks.filter (fun t => ! t.completed)).filter
            (fun t => ! t.markers.contains "VERIFY")) maxT
        else
          buildGroupsAutomatic ((tasks.filter (fun t => ! t.completed)).filter
            (fun t => ! t.markers.contains "VERIFY")) maxT).1)
        (if strategy = "worktree" then
          buildGroupsWorktree ((tasks.filter (fun t => ! t.completed)).filter
            (fun t => ! t.markers.contains "VERIFY")) maxT
        else
          buildGroupsAutomatic ((tasks.filter (fun t => ! t.completed)).filter
            (fun t => ! t.markers.contains "VERIFY")) maxT).2
        ((tasks.filter (fun t => ! t.completed)).filter
          (fun t => t.markers.contains "VERIFY"))
        tasks (tasks.filter (fun t => ! t.completed)) qc vq = r := by
      by_cases hst : strategy = "worktree"
      · rw [if_pos hst]
        rw [if_pos hst] at hr
        exact Option.some.inj hr
      · rw [if_neg hst]
        rw [if_neg hst] at hr
        exact Option.some.inj hr
    constructor
    · intro g hg t ht
      rw [← hr'] at hg
      obtain ⟨g0, hg0, htd⟩ := formatResult_groups_from _ _ _ _ _ _ _ g hg
      rw [htd] at ht
      obtain ⟨g1, hg1, ht1⟩ := addGroupDependencies_tasks_from _ g0 hg0
      rw [ht1] at ht
      exact hgroups g1 hg1 t ht
    · intro t ht hcomp hver
      rw [← hr']
      show t.id ∈ (((tasks.filter (fun t => ! t.completed)).filter
        (fun t => t.markers.contains "VERIFY")).map toSTask).map STask.id
      have hmem : t ∈ (tasks.filter (fun t => ! t.completed)).filter
          (fun t => t.markers.contains "VERIFY") := by
        rw [List.mem_filter]
        refine ⟨?_, hver⟩
        rw [List.mem_filter]
        exact ⟨ht, by rw [hcomp]; rfl⟩
      rw [List.map_map]
      exact List.mem_map_of_mem (fun u => STask.id (toSTask u)) hmem

/-- Witness for C5's amended claim: on three tasks (one of them a
verification checkpoint) with no declared groups, under the worktree
strategy the checkpoint's id appears in the verification list. -/
theorem c5_no_verify_in_groups_without_predefined_witness :
    partitionTasks c5Tasks 2 none none none "worktree"
      = some ((partitionTasks c5Tasks 2 none none none "worktree").getD emptyPResult)
    ∧ "1.2" ∈ ((partitionTasks c5Tasks 2 none none none "worktree").getD
        emptyPResult).verifyTasks.map STask.id :=
  ⟨by decide,
   (c5_no_verify_in_groups_without_predefined c5Tasks 2 none none none "worktree" rfl
      ((partitionTasks c5Tasks 2 none none none "worktree").getD emptyPResult)
      (by decide)).2
    (mkTask "1.2" 1 [] ["VERIFY"] false) (by decide) (by decide) (by decide)⟩

/-- C5 (counterexample to the claim as stated).  Under the predefined
strategy a declared group listing a `[VERIFY]` task id receives that
verification task as a group member: the claim "a verification task is
never assigned to any group under every strategy" is false. -/
theorem c5_predefined_group_contains_verify_task :
    (runPlanner c5Tasks 4 (some c5Decls) none none "file-ownership").map
        (fun r => r.groups.any (fun g => g.taskDetails.any
          (fun t => t.markers.contains "VERIFY")))
      = some true := by
  decide

end RP
